/-
Verification of the sheeprl Dreamer-family core against its specification.

The Python source is shallowly embedded: tensors along the time dimension become
lists of rationals (all tensor operations involved are elementwise across the
batch, so a single batch position is modelled by one rational per slot, and a
vector-valued slot by a `List ℚ`); neural-network modules become abstract
functions; random sampling is abstracted as a deterministic function of the
logits (a fixed seed realizes one such function).
-/

import Mathlib

namespace SheepRL

/-! ## `compute_lambda_values` (sheeprl/algos/dreamer_v2/utils.py, lines 62-79)

The time dimension is a list; each element is the (scalar, single-environment)
value at that timestep.  The Python loop

    agg = bootstrap
    for i in reversed(range(horizon)):
        agg = inputs[i] + continues[i] * lmbda * agg
        lv.append(agg)
    return cat(reversed(lv))

builds the output from the last timestep backwards; `lvAccum` is that
backward accumulation expressed as structural recursion (the head of the
recursive result is exactly the accumulator `agg` coming out of the later
timesteps, `bootstrap` when there are none). -/

/-- The backward accumulation loop of `compute_lambda_values`:
`lvAccum agg0 lmbda inputs continues` returns the list `lv` (in forward time
order), where `lv[i] = inputs[i] + continues[i] * lmbda * lv[i+1]` and the
accumulator past the end is `agg0`. -/
def lvAccum (agg0 lmbda : ℚ) : List ℚ → List ℚ → List ℚ
  | inp :: inps, c :: cs =>
    let rest := lvAccum agg0 lmbda inps cs
    (inp + c * lmbda * rest.headD agg0) :: rest
  | _, _ => []

/-- `compute_lambda_values rewards values continues bootstrap lmbda`
(the `horizon` argument of the Python function equals the length of the
time dimension of its inputs, here the list length).
`bootstrap = none` stands for the Python default `None`, replaced by zeros. -/
def compute_lambda_values (rewards values continues : List ℚ)
    (bootstrap : Option ℚ) (lmbda : ℚ) : List ℚ :=
  let b := bootstrap.getD 0
  let next_val := values.tail ++ [b]
  let inputs := List.zipWith (fun r cn => r + cn.1 * cn.2 * (1 - lmbda))
    rewards (continues.zip next_val)
  lvAccum b lmbda inputs continues

theorem lvAccum_length (agg0 lmbda : ℚ) (inps cs : List ℚ) :
    (lvAccum agg0 lmbda inps cs).length = min inps.length cs.length := by
  induction inps generalizing cs with
  | nil => cases cs <;> simp [lvAccum]
  | cons i is ih =>
    cases cs with
    | nil => simp [lvAccum]
    | cons c cs => simp [lvAccum, ih, Nat.succ_min_succ]

theorem lvAccum_getD (agg0 lmbda : ℚ) (inps cs : List ℚ)
    (hlen : inps.length = cs.length) (t : ℕ) (ht : t < inps.length) :
    (lvAccum agg0 lmbda inps cs).getD t 0 =
      inps.getD t 0 + cs.getD t 0 * lmbda *
        ((lvAccum agg0 lmbda inps cs).getD (t + 1) agg0) := by
  induction inps generalizing cs t with
  | nil => simp at ht
  | cons i is ih =>
    cases cs with
    | nil => simp at hlen
    | cons c cs =>
      simp only [List.length_cons, Nat.add_right_cancel_iff] at hlen
      cases t with
      | zero =>
        simp only [lvAccum, List.getD_cons_zero, List.getD_cons_succ]
        have hhead : (lvAccum agg0 lmbda is cs).headD agg0 =
            (lvAccum agg0 lmbda is cs).getD 0 agg0 := by
          cases lvAccum agg0 lmbda is cs <;> simp
        rw [hhead]
      | succ t =>
        simp only [lvAccum, List.getD_cons_succ]
        exact ih cs hlen t (by simpa using ht)

theorem tail_append_getD (values : List ℚ) (b : ℚ) (t : ℕ) (ht : t < values.length) :
    (values.tail ++ [b]).getD t 0 = values.getD (t + 1) b := by
  rcases values with _ | ⟨v, vs⟩
  · simp at ht
  · simp only [List.tail_cons, List.getD_cons_succ]
    rcases lt_or_ge t vs.length with h | h
    · rw [List.getD_append _ _ _ _ h, List.getD_eq_getElem _ _ h,
        List.getD_eq_getElem _ _ h]
    · have ht' : t = vs.length := by
        simp only [List.length_cons] at ht
        omega
      subst ht'
      rw [List.getD_append_right _ _ _ _ (le_refl _), List.getD_eq_default _ _ (le_refl _)]
      simp

/-- C2: `compute_lambda_values` returns, for inputs of time length `H`, the
sequence `G` with `G_t = r_t + c_t * ((1 - λ) * V_(t+1) + λ * G_(t+1))`
computed backward from `V_H = G_H = b`, where `b` is the bootstrap
(zero when the bootstrap is `none`).  The `getD _ _ b` defaults realize the
boundary values `V_H = b` and `G_H = b`. -/
theorem compute_lambda_values_backward_recursion
    (rewards values continues : List ℚ) (bootstrap : Option ℚ) (lmbda : ℚ)
    (H : ℕ) (hr : rewards.length = H) (hv : values.length = H)
    (hc : continues.length = H) (t : ℕ) (ht : t < H) :
    (compute_lambda_values rewards values continues bootstrap lmbda).length = H ∧
    (compute_lambda_values rewards values continues bootstrap lmbda).getD t 0 =
      rewards.getD t 0 + continues.getD t 0 *
        ((1 - lmbda) * values.getD (t + 1) (bootstrap.getD 0) +
          lmbda * (compute_lambda_values rewards values continues bootstrap
            lmbda).getD (t + 1) (bootstrap.getD 0)) := by
  set b := bootstrap.getD 0 with hb
  have hnv : (values.tail ++ [b]).length = H := by
    simp [List.length_tail, hv]
    omega
  have hzip : (continues.zip (values.tail ++ [b])).length = H := by
    simp [hc, hnv]
  have hinputs : (List.zipWith (fun r cn => r + cn.1 * cn.2 * (1 - lmbda))
      rewards (continues.zip (values.tail ++ [b]))).length = H := by
    simp [hr, hzip]
  have hreslen : (compute_lambda_values rewards values continues bootstrap
      lmbda).length = H := by
    rw [compute_lambda_values]
    simp only [← hb]
    rw [lvAccum_length]
    simp [hinputs, hc]
  refine ⟨hreslen, ?_⟩
  rw [compute_lambda_values]
  simp only [← hb]
  rw [lvAccum_getD _ _ _ _ (by rw [hinputs, hc]) t (by rw [hinputs]; exact ht)]
  have hig : (List.zipWith (fun r cn => r + cn.1 * cn.2 * (1 - lmbda))
      rewards (continues.zip (values.tail ++ [b]))).getD t 0 =
      rewards.getD t 0 + continues.getD t 0 * ((values.tail ++ [b]).getD t 0)
        * (1 - lmbda) := by
    have h1 : t < rewards.length := by omega
    have h2 : t < (continues.zip (values.tail ++ [b])).length := by omega
    have h3 : t < continues.length := by omega
    have h4 : t < (values.tail ++ [b]).length := by omega
    rw [List.getD_eq_getElem _ _ (by rw [hinputs]; exact ht), List.getElem_zipWith,
      List.getElem_zip, List.getD_eq_getElem _ _ h1, List.getD_eq_getElem _ _ h3,
      List.getD_eq_getElem _ _ h4]
  rw [hig, tail_append_getD values b t (by omega)]
  ring

/-- Witness for C2 at `H = 2`. -/
theorem compute_lambda_values_backward_recursion_witness :
    (compute_lambda_values [3, 5] [7, 11] [1, 1] (some 2) (1/2)).length = 2 ∧
    (compute_lambda_values [3, 5] [7, 11] [1, 1] (some 2) (1/2)).getD 0 0 =
      ([3, 5] : List ℚ).getD 0 0 + ([1, 1] : List ℚ).getD 0 0 *
        ((1 - 1/2) * ([7, 11] : List ℚ).getD 1 ((some (2:ℚ)).getD 0) +
          1/2 * (compute_lambda_values [3, 5] [7, 11] [1, 1] (some 2)
            (1/2)).getD 1 ((some (2:ℚ)).getD 0)) :=
  compute_lambda_values_backward_recursion [3, 5] [7, 11] [1, 1] (some 2) (1/2)
    2 rfl rfl rfl 0 (by decide)

/-- C9: for a one-step horizon with a single environment, the lambda-return
is `r_0 + c_0 * b`, for every `lmbda` (hence identical on all of `[0, 1]`). -/
theorem compute_lambda_values_one_step (r v c : ℚ) (bootstrap : Option ℚ)
    (lmbda : ℚ) :
    compute_lambda_values [r] [v] [c] bootstrap lmbda =
      [r + c * bootstrap.getD 0] := by
  simp only [compute_lambda_values, List.tail_cons, List.nil_append,
    List.zip_cons_cons, List.zip_nil_right, List.zipWith_cons_cons,
    List.zipWith_nil_right, lvAccum, List.headD_nil]
  congr 1
  ring

/-! ## RSSM (sheeprl/algos/dreamer_v3/agent.py, class RSSM)

One batch position is modelled.  State vectors are `List ℚ`; the neural
modules (`recurrent_model`, `transition_model`, `representation_model`) are
abstract functions, as is the uniform-mix logit smoothing (whose torch
`softmax`/`probs_to_logits` internals are external library code, verified
separately at the probability level below) and the straight-through sampler
(`dist.rsample`, randomness fixed to a function of the logits) and the
distribution mode (`dist.mode`). -/

/-- `torch.tanh(torch.zeros_like l)`: a vector of `tanh 0 = 0`, of the same
length as `l`. -/
def tanhZeros (l : List ℚ) : List ℚ :=
  l.map fun _ => 0

structure RSSM where
  recurrent_model : List ℚ → List ℚ → List ℚ
  representation_model : List ℚ → List ℚ
  transition_model : List ℚ → List ℚ
  uniform_mix : List ℚ → List ℚ
  sample_fn : List ℚ → List ℚ
  mode_fn : List ℚ → List ℚ

/-- `RSSM._transition(recurrent_out, sample_state)`: transition-model logits
through `_uniform_mix`, then `compute_stochastic_state` (sample or mode). -/
def RSSM.transition (m : RSSM) (recurrent_out : List ℚ) (sample_state : Bool) :
    List ℚ × List ℚ :=
  let logits := m.uniform_mix (m.transition_model recurrent_out)
  (logits, if sample_state then m.sample_fn logits else m.mode_fn logits)

/-- `RSSM._representation(recurrent_state, embedded_obs)`: representation-model
logits of the concatenation, through `_uniform_mix`, then a sample. -/
def RSSM.representation (m : RSSM) (recurrent_state embedded_obs : List ℚ) :
    List ℚ × List ℚ :=
  let logits := m.uniform_mix (m.representation_model
    (recurrent_state ++ embedded_obs))
  (logits, m.sample_fn logits)

/-- `action = (1 - is_first) * action` at one batch position
(`is_first` broadcast over the feature dimension). -/
def resetAction (action : List ℚ) (is_first : ℚ) : List ℚ :=
  action.map fun a => (1 - is_first) * a

/-- `recurrent_state = (1 - is_first) * recurrent_state
+ is_first * torch.tanh(torch.zeros_like(recurrent_state))`. -/
def resetRecurrent (recurrent_state : List ℚ) (is_first : ℚ) : List ℚ :=
  List.zipWith (fun r z => (1 - is_first) * r + is_first * z)
    recurrent_state (tanhZeros recurrent_state)

/-- `posterior = (1 - is_first) * posterior
+ is_first * self._transition(recurrent_state, sample_state=False)[1]`,
where `recurrent_state` is the already-reset recurrent state.  (The
`view`/`view_as` reshapes are identities on our flat vectors.) -/
def resetPosterior (m : RSSM) (posterior recurrent_state : List ℚ)
    (is_first : ℚ) : List ℚ :=
  List.zipWith (fun p q => (1 - is_first) * p + is_first * q)
    posterior (m.transition recurrent_state false).2

/-- `RSSM.dynamic` at one batch position: reset handling, recurrent update,
prior (transition) and posterior (representation).  Returns
`(recurrent_state, posterior, prior, posterior_logits, prior_logits)`. -/
def RSSM.dynamic (m : RSSM) (posterior recurrent_state action embedded_obs :
    List ℚ) (is_first : ℚ) : List ℚ × List ℚ × List ℚ × List ℚ × List ℚ :=
  let action := resetAction action is_first
  let recurrent_state := resetRecurrent recurrent_state is_first
  let posterior := resetPosterior m posterior recurrent_state is_first
  let recurrent_state := m.recurrent_model (posterior ++ action) recurrent_state
  let pr := m.transition recurrent_state true
  let po := m.representation recurrent_state embedded_obs
  (recurrent_state, po.2, pr.2, po.1, pr.1)

theorem zipWith_keep_first (l q : List ℚ) (h : q.length = l.length) :
    List.zipWith (fun p q => (1 - (0:ℚ)) * p + 0 * q) l q = l := by
  induction l generalizing q with
  | nil => simp
  | cons x xs ih =>
    cases q with
    | nil => simp at h
    | cons y ys =>
      simp only [List.length_cons, Nat.add_right_cancel_iff] at h
      simp only [List.zipWith_cons_cons, ih ys h, List.cons.injEq, and_true]
      ring

theorem zipWith_keep_second (l q : List ℚ) (h : q.length = l.length) :
    List.zipWith (fun p q => (1 - (1:ℚ)) * p + 1 * q) l q = q := by
  induction l generalizing q with
  | nil => cases q with
    | nil => simp
    | cons y ys => simp at h
  | cons x xs ih =>
    cases q with
    | nil => simp at h
    | cons y ys =>
      simp only [List.length_cons, Nat.add_right_cancel_iff] at h
      simp only [List.zipWith_cons_cons, ih ys h, List.cons.injEq, and_true]
      ring

theorem resetAction_one (action : List ℚ) :
    resetAction action 1 = action.map fun _ => 0 := by
  simp only [resetAction]
  apply List.map_congr_left
  intro a _
  ring

theorem resetAction_zero (action : List ℚ) : resetAction action 0 = action := by
  simp only [resetAction]
  apply List.map_id''
  intro a
  ring

theorem resetRecurrent_one (r : List ℚ) : resetRecurrent r 1 = tanhZeros r := by
  simp only [resetRecurrent, tanhZeros]
  rw [List.zipWith_map_right, List.zipWith_same]
  apply List.map_congr_left
  intro a _
  simp

theorem resetRecurrent_zero (r : List ℚ) : resetRecurrent r 0 = r := by
  simp only [resetRecurrent, tanhZeros]
  rw [List.zipWith_map_right, List.zipWith_same]
  apply List.map_id''
  intro a
  simp

theorem resetPosterior_one (m : RSSM) (p rc : List ℚ)
    (hlen : ((m.transition rc false).2).length = p.length) :
    resetPosterior m p rc 1 = (m.transition rc false).2 :=
  zipWith_keep_second _ _ hlen

theorem resetPosterior_zero (m : RSSM) (p rc : List ℚ)
    (hlen : ((m.transition rc false).2).length = p.length) :
    resetPosterior m p rc 0 = p :=
  zipWith_keep_first _ _ hlen

theorem tanhZeros_eq_of_length {r r' : List ℚ} (h : r'.length = r.length) :
    tanhZeros r' = tanhZeros r := by
  simp only [tanhZeros]
  rw [List.map_const', List.map_const', h]

/-- C3: before the recurrent-model update in `RSSM.dynamic`, a batch position
with `is_first = 1` uses the zero action, the `tanh 0` recurrent state, and the
non-sampled (mode) prior that the transition model produces from that reset
recurrent state; a position with `is_first = 0` uses the supplied action,
recurrent state and stochastic state unchanged. -/
theorem dynamic_reset_inputs (m : RSSM) (posterior recurrent_state action :
    List ℚ)
    (hlen1 : ((m.transition (resetRecurrent recurrent_state 1) false).2).length
      = posterior.length)
    (hlen0 : ((m.transition (resetRecurrent recurrent_state 0) false).2).length
      = posterior.length) :
    (resetAction action 1 = action.map (fun _ => 0) ∧
      resetRecurrent recurrent_state 1 = tanhZeros recurrent_state ∧
      resetPosterior m posterior (resetRecurrent recurrent_state 1) 1 =
        (m.transition (resetRecurrent recurrent_state 1) false).2) ∧
    (resetAction action 0 = action ∧
      resetRecurrent recurrent_state 0 = recurrent_state ∧
      resetPosterior m posterior (resetRecurrent recurrent_state 0) 0 =
        posterior) :=
  ⟨⟨resetAction_one action, resetRecurrent_one recurrent_state,
    resetPosterior_one m posterior _ hlen1⟩,
    resetAction_zero action, resetRecurrent_zero recurrent_state,
    resetPosterior_zero m posterior _ hlen0⟩

/-- Concrete RSSM instance used to evaluate the embedding on closed inputs. -/
def rssmW : RSSM where
  recurrent_model := fun x _ => x.map fun v => v + 1
  representation_model := fun x => x
  transition_model := fun x => x
  uniform_mix := fun x => x
  sample_fn := fun x => x.map fun v => 2 * v
  mode_fn := fun x => x

/-- Witness for C3 at a concrete model and concrete states. -/
theorem dynamic_reset_inputs_witness :
    (resetAction [4] 1 = ([4] : List ℚ).map (fun _ => 0) ∧
      resetRecurrent [3] 1 = tanhZeros [3] ∧
      resetPosterior rssmW [2] (resetRecurrent [3] 1) 1 =
        (rssmW.transition (resetRecurrent [3] 1) false).2) ∧
    (resetAction [4] 0 = [4] ∧
      resetRecurrent [3] 0 = [3] ∧
      resetPosterior rssmW [2] (resetRecurrent [3] 0) 0 = [2]) :=
  dynamic_reset_inputs rssmW [2] [3] [4] (by decide) (by decide)

/-- Concrete RSSM instance refuting C1: its recurrent model never outputs the
zero vector. -/
def rssmCE : RSSM where
  recurrent_model := fun _ _ => [1]
  representation_model := fun x => x
  transition_model := fun x => x
  uniform_mix := fun x => x
  sample_fn := fun x => x
  mode_fn := fun x => x

/-- Counterexample to C1: with `is_first = 1`, the recurrent state returned by
`RSSM.dynamic` is the output of the recurrent model, not the initialization
value `tanh 0`. -/
theorem dynamic_output_recurrent_not_init :
    (RSSM.dynamic rssmCE [0] [0] [0] [] 1).1 ≠ tanhZeros [0] := by
  decide

/-- C1 amended: at a batch position with `is_first = 1`, the outputs of
`RSSM.dynamic` are computed from the reset values — the returned recurrent
state is the recurrent model applied to the mode prior of the `tanh 0` state
concatenated with the zero action, the returned posterior (stochastic state)
is the representation sample at that recurrent state and the embedded
observation, and the returned prior is the transition sample there; hence the
outputs are independent of the supplied posterior, action and recurrent state
(given matching shapes). -/
theorem dynamic_is_first_outputs (m : RSSM) (p r a e p' r' a' : List ℚ)
    (hp : ((m.transition (tanhZeros r) false).2).length = p.length)
    (hpl : p'.length = p.length) (hrl : r'.length = r.length)
    (hal : a'.length = a.length) :
    (RSSM.dynamic m p r a e 1).1 =
      m.recurrent_model ((m.transition (tanhZeros r) false).2 ++
        a.map (fun _ => 0)) (tanhZeros r) ∧
    (RSSM.dynamic m p r a e 1).2.1 =
      (m.representation ((RSSM.dynamic m p r a e 1).1) e).2 ∧
    (RSSM.dynamic m p r a e 1).2.2.1 =
      (m.transition ((RSSM.dynamic m p r a e 1).1) true).2 ∧
    RSSM.dynamic m p r a e 1 = RSSM.dynamic m p' r' a' e 1 := by
  have hform : ∀ q s b : List ℚ,
      ((m.transition (tanhZeros s) false).2).length = q.length →
      RSSM.dynamic m q s b e 1 =
        (let rec1 := m.recurrent_model ((m.transition (tanhZeros s) false).2 ++
          b.map (fun _ => 0)) (tanhZeros s)
        (rec1, (m.representation rec1 e).2, (m.transition rec1 true).2,
          (m.representation rec1 e).1, (m.transition rec1 true).1)) := by
    intro q s b hq
    simp only [RSSM.dynamic, resetRecurrent_one, resetAction_one,
      resetPosterior_one m q (tanhZeros s) hq]
  have hp' : ((m.transition (tanhZeros r') false).2).length = p'.length := by
    rw [tanhZeros_eq_of_length hrl, hp, hpl]
  rw [hform p r a hp, hform p' r' a' hp']
  have hz : tanhZeros r' = tanhZeros r := tanhZeros_eq_of_length hrl
  have ha0 : a'.map (fun _ => (0:ℚ)) = a.map (fun _ => 0) := by
    rw [List.map_const', List.map_const', hal]
  rw [hz, ha0]
  exact ⟨rfl, rfl, rfl, rfl⟩

/-- Witness for C1's amended theorem at a concrete model and states. -/
theorem dynamic_is_first_outputs_witness :
    (RSSM.dynamic rssmW [2] [3] [4] [5] 1).1 =
      rssmW.recurrent_model ((rssmW.transition (tanhZeros [3]) false).2 ++
        ([4] : List ℚ).map (fun _ => 0)) (tanhZeros [3]) ∧
    (RSSM.dynamic rssmW [2] [3] [4] [5] 1).2.1 =
      (rssmW.representation ((RSSM.dynamic rssmW [2] [3] [4] [5] 1).1) [5]).2 ∧
    (RSSM.dynamic rssmW [2] [3] [4] [5] 1).2.2.1 =
      (rssmW.transition ((RSSM.dynamic rssmW [2] [3] [4] [5] 1).1) true).2 ∧
    RSSM.dynamic rssmW [2] [3] [4] [5] 1 =
      RSSM.dynamic rssmW [7] [8] [9] [5] 1 :=
  dynamic_is_first_outputs rssmW [2] [3] [4] [5] [7] [8] [9]
    (by decide) (by decide) (by decide) (by decide)

/-! ## `_uniform_mix` at the probability level

`RSSM._uniform_mix` and `Actor._uniform_mix` compute
`probs = (1 - unimix) * softmax(logits) + unimix * uniform` and convert back
to logits with `probs_to_logits`.  `softmax` and `probs_to_logits` are torch
library functions; they are modelled at the probability level: `softmaxE`
is softmax with an abstract exponential-like map `E` (the only property of
`exp` involved is positivity), and the functions below return the class
probabilities of the categorical distribution defined by the returned logits
(`softmax ∘ probs_to_logits` is the identity on probability vectors). -/

/-- Softmax with an abstract exponential `E`. -/
def softmaxE (E : ℚ → ℚ) (l : List ℚ) : List ℚ :=
  l.map fun x => E x / (l.map E).sum

/-- `Actor._uniform_mix` (agent.py lines 717-723) at the probability level;
the number of classes is the last-dimension size `l.length`, and the smoothing
is applied only when `unimix > 0`. -/
def actorUniformMixProbs (E : ℚ → ℚ) (u : ℚ) (l : List ℚ) : List ℚ :=
  if 0 < u then
    (softmaxE E l).map fun p => (1 - u) * p + u * (1 / l.length)
  else softmaxE E l

/-- `RSSM._uniform_mix` (agent.py lines 384-396) at the probability level:
the logits are reshaped into categorical groups of size `discrete` (given here
already reshaped), each smoothed against the uniform `1 / discrete`. -/
def rssmUniformMixProbs (E : ℚ → ℚ) (u : ℚ) (discrete : ℕ)
    (groups : List (List ℚ)) : List (List ℚ) :=
  if 0 < u then
    groups.map fun g => (softmaxE E g).map fun p => (1 - u) * p + u * (1 / discrete)
  else groups.map (softmaxE E)

theorem softmaxE_nonneg (E : ℚ → ℚ) (hE : ∀ x, 0 < E x) (l : List ℚ) :
    ∀ q ∈ softmaxE E l, 0 ≤ q := by
  intro q hq
  simp only [softmaxE, List.mem_map] at hq
  obtain ⟨x, hx, rfl⟩ := hq
  have hsum : 0 < (l.map E).sum := by
    apply List.sum_pos
    · intro y hy
      simp only [List.mem_map] at hy
      obtain ⟨z, _, rfl⟩ := hy
      exact hE z
    · simp only [ne_eq, List.map_eq_nil_iff]
      intro h
      rw [h] at hx
      exact List.not_mem_nil x hx
  exact le_of_lt (div_pos (hE x) hsum)

theorem mix_entry_lower_bound (u q k : ℚ) (hq : 0 ≤ q) (hu1 : u ≤ 1) :
    u * k ≤ (1 - u) * q + u * k := by
  nlinarith

/-- C4: for `0 < u ≤ 1`, every class probability of the categorical
distribution defined by the logits returned by `_uniform_mix` — the RSSM
variant with `K = discrete` classes per categorical group, and the Actor
variant with `K` the last-dimension size — is at least `u / K`. -/
theorem uniform_mix_lower_bound (E : ℚ → ℚ) (u : ℚ) (hE : ∀ x, 0 < E x)
    (hu0 : 0 < u) (hu1 : u ≤ 1) :
    (∀ l : List ℚ, ∀ p ∈ actorUniformMixProbs E u l, u / l.length ≤ p) ∧
    (∀ (discrete : ℕ) (groups : List (List ℚ)),
      ∀ g ∈ rssmUniformMixProbs E u discrete groups, ∀ p ∈ g,
        u / discrete ≤ p) := by
  constructor
  · intro l p hp
    simp only [actorUniformMixProbs, if_pos hu0, List.mem_map] at hp
    obtain ⟨q, hq, rfl⟩ := hp
    rw [div_eq_mul_one_div u (l.length : ℚ)]
    exact mix_entry_lower_bound u q _ (softmaxE_nonneg E hE l q hq) hu1
  · intro discrete groups g hg p hp
    simp only [rssmUniformMixProbs, if_pos hu0, List.mem_map] at hg
    obtain ⟨g0, _, rfl⟩ := hg
    simp only [List.mem_map] at hp
    obtain ⟨q, hq, rfl⟩ := hp
    rw [div_eq_mul_one_div u (discrete : ℚ)]
    exact mix_entry_lower_bound u q _ (softmaxE_nonneg E hE g0 q hq) hu1

/-- Witness for C4 at `E = const 1`, `u = 1/100`, concrete logits. -/
theorem uniform_mix_lower_bound_witness :
    (1:ℚ)/100 / (([0, 3] : List ℚ).length) ≤
      (actorUniformMixProbs (fun _ => 1) (1/100) [0, 3]).headD 0 := by
  have h := (uniform_mix_lower_bound (fun _ => 1) (1/100) (fun _ => one_pos)
    (by norm_num) (by norm_num)).1 [0, 3]
  have hval : actorUniformMixProbs (fun _ => 1) (1/100) [0, 3] = [1/2, 1/2] := by
    norm_num [actorUniformMixProbs, softmaxE]
  refine h _ ?_
  rw [hval]
  simp

/-! ## Target-network EMA update (sheeprl/algos/sac_pixel/agent.py, 253-255)

The zipped parameter sequences become lists of rationals; the in-place
`copy_` becomes the returned list of new target parameters.  (Python's `zip`
and `List.zipWith` both stop at the shorter sequence.) -/

/-- `qfs_target_ema`: each target parameter is overwritten with
`tau * param + (1 - tau) * target_param`. -/
def qfs_target_ema (tau : ℚ) (online target : List ℚ) : List ℚ :=
  List.zipWith (fun p t => tau * p + (1 - tau) * t) online target

/-- C6: after one EMA update with coefficient `tau`, every target parameter
equals `tau * online + (1 - tau) * previous target`; with `tau = 1` the
target parameters equal the online parameters exactly. -/
theorem qfs_target_ema_update (tau : ℚ) (online target : List ℚ)
    (h : online.length = target.length) :
    (∀ i, i < target.length →
      (qfs_target_ema tau online target).getD i 0 =
        tau * online.getD i 0 + (1 - tau) * target.getD i 0) ∧
    qfs_target_ema 1 online target = online := by
  constructor
  · intro i hi
    have h1 : i < online.length := by omega
    have h2 : i < (qfs_target_ema tau online target).length := by
      simp [qfs_target_ema, h]
      omega
    rw [List.getD_eq_getElem _ _ h2, List.getD_eq_getElem _ _ h1,
      List.getD_eq_getElem _ _ hi]
    simp only [qfs_target_ema]
    rw [List.getElem_zipWith]
  · have hfun : (fun p t : ℚ => 1 * p + (1 - 1) * t) =
        (fun p q : ℚ => (1 - 0) * p + 0 * q) := by
      funext p q
      ring
    simp only [qfs_target_ema, hfun]
    exact zipWith_keep_first online target h.symm

/-- Witness for C6 at `tau = 1/4` on concrete parameter lists. -/
theorem qfs_target_ema_update_witness :
    (∀ i, i < ([8, 12] : List ℚ).length →
      (qfs_target_ema (1/4) [4, 0] [8, 12]).getD i 0 =
        1/4 * ([4, 0] : List ℚ).getD i 0 +
          (1 - 1/4) * ([8, 12] : List ℚ).getD i 0) ∧
    qfs_target_ema 1 [4, 0] [8, 12] = [4, 0] :=
  qfs_target_ema_update (1/4) [4, 0] [8, 12] (by decide)

/-! ## Actor construction checks (sheeprl/algos/dreamer_v3/agent.py, 630-643)

Only the distribution-validation logic of `Actor.__init__` is modelled:
`ValueError` becomes `Except.error`, normal completion of the checks becomes
`Except.ok` carrying the resolved distribution name. -/

def allowedDistributions : List String :=
  ["auto", "normal", "tanh_normal", "discrete", "trunc_normal"]

/-- The construction-time distribution checks of `Actor.__init__`. -/
def actorDistributionCheck (distribution : String) (is_continuous : Bool) :
    Except String String :=
  let d := distribution.toLower
  if d ∉ allowedDistributions then
    Except.error "The distribution must be on of: auto, discrete, normal, tanh_normal and trunc_normal"
  else if d = "discrete" ∧ is_continuous = true then
    Except.error "You have choose a discrete distribution but is_continuous is true"
  else
    Except.ok (if d = "auto" then
      (if is_continuous then "trunc_normal" else "discrete") else d)

/-- C8: `Actor` construction raises exactly when the lower-cased distribution
name is not one of auto, normal, tanh_normal, discrete, trunc_normal, or when
it is discrete while `is_continuous` holds; every other configuration passes
the construction-time checks. -/
theorem actorDistributionCheck_error_iff (distribution : String)
    (is_continuous : Bool) :
    (actorDistributionCheck distribution is_continuous).isOk = false ↔
      (distribution.toLower ∉ allowedDistributions ∨
        (distribution.toLower = "discrete" ∧ is_continuous = true)) := by
  simp only [actorDistributionCheck]
  split
  · rename_i h
    simp [Except.isOk, Except.toBool, h]
  · rename_i h
    split
    · rename_i h2
      simp only [Except.isOk, Except.toBool]
      simpa using Or.inr h2
    · rename_i h2
      simp only [Except.isOk, Except.toBool]
      constructor
      · intro hfalse
        exact absurd hfalse (by simp)
      · intro hor
        rcases hor with hmem | hd
        · exact absurd h (by simpa using hmem)
        · exact absurd hd h2

/-! ## Two-hot encoding (sheeprl/utils/distribution.py, lines 249-266)

`TwoHotEncodingDistribution.log_prob` first applies the forward transform to
the scalar target and then builds the two-hot target vector from the
transformed value and the bin grid `torch.linspace(low, high, n)`.  The
construction below takes the already-transformed scalar `y` (the claims are
phrased about the transformed target) and follows lines 251-264: counting,
integer clipping, tie handling, inverse-distance weights, and the
superposition of the two one-hot vectors. -/

/-- Entry `j` of `torch.linspace low high n` (for `n = 1`, `(n : ℚ) - 1 = 0`
and rational division by zero yields `low`, matching torch). -/
def linEntry (low high : ℚ) (n : ℕ) (j : ℕ) : ℚ :=
  low + (high - low) * j / ((n : ℚ) - 1)

/-- `torch.linspace low high n`. -/
def linspace (low high : ℚ) (n : ℕ) : List ℚ :=
  (List.range n).map (linEntry low high n)

/-- The two-hot target vector of `TwoHotEncodingDistribution.log_prob` for the
transformed scalar `y` over the given bins. -/
def twoHotTarget (bins : List ℚ) (y : ℚ) : List ℚ :=
  let n : ℤ := bins.length
  let below : ℤ := min (max ((bins.countP fun b => decide (b ≤ y)) - 1) 0) (n - 1)
  let above : ℤ := min (max (n - (bins.countP fun b => decide (y < b))) 0) (n - 1)
  let dist_to_below : ℚ :=
    if below = above then 1 else |bins.getD below.toNat 0 - y|
  let dist_to_above : ℚ :=
    if below = above then 1 else |bins.getD above.toNat 0 - y|
  let total := dist_to_below + dist_to_above
  let weight_below := dist_to_above / total
  let weight_above := dist_to_below / total
  (List.range bins.length).map fun (j : ℕ) =>
    (if ((j : ℤ) = below) then weight_below else 0) +
    (if ((j : ℤ) = above) then weight_above else 0)

/-- The one-hot vector of length `n` with its unit at index `i`. -/
def oneHot (n i : ℕ) : List ℚ :=
  (List.range n).map fun j => if j = i then 1 else 0

theorem countP_gt_eq (bins : List ℚ) (y : ℚ) :
    (bins.countP fun b => decide (y < b)) =
      bins.length - (bins.countP fun b => decide (b ≤ y)) := by
  have hcongr : (bins.countP fun b => decide (y < b)) =
      bins.countP fun a => decide ¬decide (a ≤ y) = true := by
    apply List.countP_congr
    intro b _
    by_cases hb : b ≤ y
    · simp [hb, not_lt.mpr hb]
    · simp [hb, not_le.mp hb]
  rw [hcongr]
  have h := List.length_eq_countP_add_countP (fun b => decide (b ≤ y)) bins
  omega

theorem countP_range_le (i n : ℕ) :
    ((List.range n).countP fun j => decide (j ≤ i)) = min (i + 1) n := by
  induction n with
  | zero => simp
  | succ n ih =>
    rw [List.range_succ, List.countP_append, ih]
    by_cases h : n ≤ i <;> simp [h] <;> omega

theorem linEntry_lt_linEntry (low high : ℚ) (n : ℕ) (h2 : 2 ≤ n)
    (hlh : low < high) {j k : ℕ} (hjk : j < k) :
    linEntry low high n j < linEntry low high n k := by
  have hn : (0:ℚ) < (n : ℚ) - 1 := by
    have : (2:ℚ) ≤ (n : ℚ) := by exact_mod_cast h2
    linarith
  have hh : (0:ℚ) < high - low := by linarith
  have hjk' : (j : ℚ) < (k : ℚ) := by exact_mod_cast hjk
  simp only [linEntry]
  have : (high - low) * j < (high - low) * k := by
    exact mul_lt_mul_of_pos_left hjk' hh
  have := div_lt_div_of_pos_right this hn
  linarith

theorem linEntry_le_iff (low high : ℚ) (n : ℕ) (h2 : 2 ≤ n)
    (hlh : low < high) {j k : ℕ} :
    linEntry low high n j ≤ linEntry low high n k ↔ j ≤ k := by
  constructor
  · intro h
    by_contra hc
    exact absurd h (not_le.mpr (linEntry_lt_linEntry low high n h2 hlh
      (by omega)))
  · intro h
    rcases Nat.lt_or_ge j k with hlt | hge
    · exact le_of_lt (linEntry_lt_linEntry low high n h2 hlh hlt)
    · have : j = k := by omega
      rw [this]

theorem linspace_length (low high : ℚ) (n : ℕ) :
    (linspace low high n).length = n := by
  simp [linspace]

theorem linspace_getD (low high : ℚ) (n : ℕ) {j : ℕ} (hj : j < n) :
    (linspace low high n).getD j 0 = linEntry low high n j := by
  rw [linspace, List.getD_eq_getElem _ _ (by simpa using hj)]
  simp

theorem linspace_countP_le (low high : ℚ) (n : ℕ) (y : ℚ) :
    ((linspace low high n).countP fun b => decide (b ≤ y)) =
      ((List.range n).countP fun j => decide (linEntry low high n j ≤ y)) := by
  rw [linspace, List.countP_map]
  rfl

theorem twoHotTarget_count_zero (bins : List ℚ) (y : ℚ)
    (hc : (bins.countP fun b => decide (b ≤ y)) = 0) (hn : 1 ≤ bins.length) :
    twoHotTarget bins y = oneHot bins.length 0 := by
  have hgt := countP_gt_eq bins y
  rw [hc] at hgt
  simp only [twoHotTarget, hc, hgt, oneHot]
  have hb : min (max (((0:ℕ):ℤ) - 1) 0) ((bins.length : ℤ) - 1) = 0 := by
    omega
  have ha : min (max ((bins.length : ℤ) - ((bins.length - 0 : ℕ) : ℤ)) 0)
      ((bins.length : ℤ) - 1) = 0 := by
    omega
  rw [hb, ha]
  simp only [if_pos rfl]
  apply List.map_congr_left
  intro j hj
  by_cases hj0 : j = 0
  · subst hj0
    norm_num
  · have : ¬((j:ℤ) = 0) := by omega
    simp [this, hj0]

theorem twoHotTarget_count_full (bins : List ℚ) (y : ℚ)
    (hc : (bins.countP fun b => decide (b ≤ y)) = bins.length)
    (hn : 1 ≤ bins.length) :
    twoHotTarget bins y = oneHot bins.length (bins.length - 1) := by
  have hgt := countP_gt_eq bins y
  rw [hc] at hgt
  simp only [twoHotTarget, hc, hgt, oneHot]
  have hb : min (max ((bins.length : ℤ) - 1) 0) ((bins.length : ℤ) - 1) =
      (bins.length : ℤ) - 1 := by
    omega
  have ha : min (max ((bins.length : ℤ) -
      ((bins.length - bins.length : ℕ) : ℤ)) 0) ((bins.length : ℤ) - 1) =
      (bins.length : ℤ) - 1 := by
    omega
  rw [hb, ha]
  simp only [if_pos rfl]
  apply List.map_congr_left
  intro j hj
  simp only [List.mem_range] at hj
  by_cases hj0 : j = bins.length - 1
  · subst hj0
    have hcast : ((bins.length - 1 : ℕ) : ℤ) = (bins.length : ℤ) - 1 := by omega
    simp only [hcast, if_pos rfl]
    norm_num
  · have : ¬((j:ℤ) = (bins.length : ℤ) - 1) := by omega
    simp [this, hj0]

theorem twoHotTarget_count_mid (bins : List ℚ) (y : ℚ) (c : ℕ)
    (hc : (bins.countP fun b => decide (b ≤ y)) = c) (h0 : 0 < c)
    (hn : c < bins.length) :
    twoHotTarget bins y =
      (List.range bins.length).map (fun j =>
        (if j = c - 1 then |bins.getD c 0 - y| /
          (|bins.getD (c - 1) 0 - y| + |bins.getD c 0 - y|) else 0) +
        (if j = c then |bins.getD (c - 1) 0 - y| /
          (|bins.getD (c - 1) 0 - y| + |bins.getD c 0 - y|) else 0)) := by
  have hgt := countP_gt_eq bins y
  rw [hc] at hgt
  simp only [twoHotTarget, hc, hgt]
  have hb : min (max ((c : ℤ) - 1) 0) ((bins.length : ℤ) - 1) = (c : ℤ) - 1 := by
    omega
  have ha : min (max ((bins.length : ℤ) - ((bins.length - c : ℕ) : ℤ)) 0)
      ((bins.length : ℤ) - 1) = (c : ℤ) := by
    omega
  rw [hb, ha]
  have hne : ¬((c : ℤ) - 1 = (c : ℤ)) := by omega
  rw [if_neg hne, if_neg hne]
  have hbt : ((c : ℤ) - 1).toNat = c - 1 := by omega
  have hat : ((c : ℤ)).toNat = c := by omega
  rw [hbt, hat]
  apply List.map_congr_left
  intro j hj
  have h1 : ((j:ℤ) = (c : ℤ) - 1) ↔ (j = c - 1) := by omega
  have h2 : ((j:ℤ) = (c : ℤ)) ↔ (j = c) := by omega
  rw [if_congr h1 rfl rfl, if_congr h2 rfl rfl]

theorem countP_range_threshold (p : ℕ → Bool) (n : ℕ)
    (hdc : ∀ a b : ℕ, a ≤ b → p b = true → p a = true) :
    (∀ j, j < (List.range n).countP p → p j = true) ∧
    (∀ j, j < n → (List.range n).countP p ≤ j → p j = false) := by
  induction n with
  | zero => simp
  | succ n ih =>
    rw [List.range_succ, List.countP_append]
    by_cases hp : p n = true
    · have hall : (List.range n).countP p = n := by
        have h : (List.range n).countP p = (List.range n).length :=
          List.countP_eq_length.mpr (fun j hj => hdc j n (by simp at hj; omega) hp)
        simpa using h
      rw [hall]
      constructor
      · intro j hj
        simp only [List.countP_cons, List.countP_nil, hp] at hj
        rcases Nat.lt_or_ge j n with h | h
        · exact hdc j n (by omega) hp
        · have : j = n := by
            simp at hj
            omega
          rw [this]
          exact hp
      · intro j hj hcount
        simp [hp] at hcount
        omega
    · have hsingle : List.countP p [n] = 0 := by
        simp [hp]
      rw [hsingle, Nat.add_zero]
      constructor
      · intro j hj
        exact ih.1 j hj
      · intro j hj hcount
        rcases Nat.lt_or_ge j n with h | h
        · exact ih.2 j h hcount
        · have : j = n := by omega
          rw [this]
          exact Bool.not_eq_true _ |>.mp hp

theorem sum_range_single (n k : ℕ) (w : ℚ) (hk : k < n) :
    ((List.range n).map fun j => if j = k then w else 0).sum = w := by
  induction n with
  | zero => omega
  | succ n ih =>
    rw [List.range_succ, List.map_append, List.sum_append]
    rcases Nat.lt_or_ge k n with h | h
    · rw [ih h]
      have : ¬(n = k) := by omega
      simp [this]
    · have hkn : k = n := by omega
      have hzero : ((List.range n).map fun j => if j = k then w else 0).sum
          = 0 := by
        apply List.sum_eq_zero
        intro x hx
        simp only [List.mem_map, List.mem_range] at hx
        obtain ⟨j, hj, rfl⟩ := hx
        have : ¬(j = k) := by omega
        simp [this]
      rw [hzero]
      simp [hkn]

theorem oneHot_sum (n i : ℕ) (hi : i < n) : (oneHot n i).sum = 1 :=
  sum_range_single n i 1 hi

theorem oneHot_nonneg (n i : ℕ) : ∀ p ∈ oneHot n i, 0 ≤ p := by
  intro p hp
  simp only [oneHot, List.mem_map] at hp
  obtain ⟨j, _, rfl⟩ := hp
  by_cases h : j = i <;> simp [h]

theorem linEntry_zero (low high : ℚ) (n : ℕ) : linEntry low high n 0 = low := by
  simp [linEntry]

theorem linEntry_last (low high : ℚ) (n : ℕ) (h2 : 2 ≤ n) :
    linEntry low high n (n - 1) = high := by
  have hcast : ((n - 1 : ℕ) : ℚ) = (n : ℚ) - 1 := by
    rw [Nat.cast_sub (by omega : 1 ≤ n), Nat.cast_one]
  have hne : ((n : ℚ) - 1) ≠ 0 := by
    have : (2:ℚ) ≤ (n : ℚ) := by exact_mod_cast h2
    intro h
    linarith
  rw [linEntry, hcast, mul_div_assoc, div_self hne, mul_one]
  ring

theorem linspace_count_at_bin (low high : ℚ) (n : ℕ) (h2 : 2 ≤ n)
    (hlh : low < high) (i : ℕ) (hi : i < n) :
    ((linspace low high n).countP fun b =>
      decide (b ≤ linEntry low high n i)) = i + 1 := by
  rw [linspace_countP_le]
  have hcong : ((List.range n).countP fun j =>
      decide (linEntry low high n j ≤ linEntry low high n i)) =
      (List.range n).countP fun j => decide (j ≤ i) := by
    apply List.countP_congr
    intro j _
    simp only [decide_eq_true_eq]
    exact linEntry_le_iff low high n h2 hlh
  rw [hcong, countP_range_le]
  omega

theorem linspace_count_below (low high : ℚ) (n : ℕ) (h2 : 2 ≤ n)
    (hlh : low < high) (y : ℚ) (hy : y < low) :
    ((linspace low high n).countP fun b => decide (b ≤ y)) = 0 := by
  apply List.countP_eq_zero.mpr
  intro b hb
  simp only [linspace, List.mem_map, List.mem_range] at hb
  obtain ⟨j, hj, rfl⟩ := hb
  have hge : linEntry low high n 0 ≤ linEntry low high n j :=
    (linEntry_le_iff low high n h2 hlh).mpr (Nat.zero_le j)
  rw [linEntry_zero] at hge
  simp only [decide_eq_true_eq, not_le]
  linarith

theorem linspace_count_above (low high : ℚ) (n : ℕ) (h2 : 2 ≤ n)
    (hlh : low < high) (y : ℚ) (hy : high < y) :
    ((linspace low high n).countP fun b => decide (b ≤ y)) = n := by
  have h : ((linspace low high n).countP fun b => decide (b ≤ y)) =
      (linspace low high n).length := by
    apply List.countP_eq_length.mpr
    intro b hb
    simp only [linspace, List.mem_map, List.mem_range] at hb
    obtain ⟨j, hj, rfl⟩ := hb
    have hle : linEntry low high n j ≤ linEntry low high n (n - 1) :=
      (linEntry_le_iff low high n h2 hlh).mpr (by omega)
    rw [linEntry_last low high n h2] at hle
    simp only [decide_eq_true_eq]
    linarith
  rw [h, linspace_length]

theorem linspace_count_mid (low high : ℚ) (n : ℕ) (h2 : 2 ≤ n)
    (hlh : low < high) (i : ℕ) (hi : i + 1 < n) :
    ((linspace low high n).countP fun b =>
      decide (b ≤ (linEntry low high n i + linEntry low high n (i + 1)) / 2))
      = i + 1 := by
  set y := (linEntry low high n i + linEntry low high n (i + 1)) / 2 with hy
  have hstep : linEntry low high n i < linEntry low high n (i + 1) :=
    linEntry_lt_linEntry low high n h2 hlh (Nat.lt_succ_self i)
  have hlow : linEntry low high n i < y := by
    rw [hy]
    linarith
  have hhigh : y < linEntry low high n (i + 1) := by
    rw [hy]
    linarith
  rw [linspace_countP_le]
  have hcong : ((List.range n).countP fun j =>
      decide (linEntry low high n j ≤ y)) =
      (List.range n).countP fun j => decide (j ≤ i) := by
    apply List.countP_congr
    intro j _
    simp only [decide_eq_true_eq]
    constructor
    · intro h
      by_contra hc
      have : linEntry low high n (i + 1) ≤ linEntry low high n j :=
        (linEntry_le_iff low high n h2 hlh).mpr (by omega)
      linarith
    · intro h
      have : linEntry low high n j ≤ linEntry low high n i :=
        (linEntry_le_iff low high n h2 hlh).mpr h
      linarith
  rw [hcong, countP_range_le]
  omega

/-- C5: the two-hot target of `TwoHotEncodingDistribution.log_prob` over the
bins `linspace low high n`, for the transformed scalar target: a target equal
to a bin value gets all weight on that bin; a target below `low` (above
`high`) gets all weight on the first (last) bin; a target exactly midway
between two adjacent bins gives each of the two bins weight `1/2`. -/
theorem twoHotTarget_special_cases (low high : ℚ) (n : ℕ) (h2 : 2 ≤ n)
    (hlh : low < high) :
    (∀ i, i < n → twoHotTarget (linspace low high n) (linEntry low high n i) =
      oneHot n i) ∧
    (∀ y, y < low → twoHotTarget (linspace low high n) y = oneHot n 0) ∧
    (∀ y, high < y → twoHotTarget (linspace low high n) y = oneHot n (n - 1)) ∧
    (∀ i, i + 1 < n →
      twoHotTarget (linspace low high n)
        ((linEntry low high n i + linEntry low high n (i + 1)) / 2) =
      (List.range n).map fun j =>
        (if j = i then (1:ℚ)/2 else 0) + (if j = i + 1 then (1:ℚ)/2 else 0)) := by
  have hlen : (linspace low high n).length = n := linspace_length low high n
  refine ⟨?_, ?_, ?_, ?_⟩
  · intro i hi
    rcases Nat.lt_or_ge (i + 1) n with hin | hin
    · have hc := linspace_count_at_bin low high n h2 hlh i hi
      have hmid := twoHotTarget_count_mid (linspace low high n)
        (linEntry low high n i) (i + 1) hc (by omega) (by omega)
      rw [hmid, oneHot, hlen]
      have hsimp : i + 1 - 1 = i := by omega
      rw [hsimp]
      have hgi : (linspace low high n).getD i 0 = linEntry low high n i :=
        linspace_getD low high n hi
      have hgi1 : (linspace low high n).getD (i + 1) 0 =
          linEntry low high n (i + 1) := linspace_getD low high n hin
      rw [hgi, hgi1]
      have hstep : linEntry low high n i < linEntry low high n (i + 1) :=
        linEntry_lt_linEntry low high n h2 hlh (Nat.lt_succ_self i)
      have hdb : |linEntry low high n i - linEntry low high n i| = 0 := by
        simp
      have hda : |linEntry low high n (i + 1) - linEntry low high n i| =
          linEntry low high n (i + 1) - linEntry low high n i :=
        abs_of_pos (by linarith)
      rw [hdb, hda]
      apply List.map_congr_left
      intro j _
      by_cases hj : j = i
      · subst hj
        have hne : ¬(j = j + 1) := by omega
        rw [if_pos rfl, if_neg hne, if_pos rfl]
        rw [zero_add, div_self (by linarith), add_zero]
      · by_cases hj1 : j = i + 1
        · subst hj1
          rw [if_neg hj, if_pos rfl, if_neg (by omega)]
          simp
        · rw [if_neg hj, if_neg hj1, if_neg hj]
          norm_num
    · have hieq : i = n - 1 := by omega
      have hcfull := linspace_count_at_bin low high n h2 hlh i hi
      have h := twoHotTarget_count_full (linspace low high n)
        (linEntry low high n i) (by rw [hcfull, hlen]; omega) (by omega)
      rw [h, hlen, hieq]
  · intro y hy
    have h := twoHotTarget_count_zero (linspace low high n) y
      (linspace_count_below low high n h2 hlh y hy) (by rw [hlen]; omega)
    rw [h, hlen]
  · intro y hy
    have h := twoHotTarget_count_full (linspace low high n) y
      (by rw [linspace_count_above low high n h2 hlh y hy, hlen])
      (by rw [hlen]; omega)
    rw [h, hlen]
  · intro i hi
    have hc := linspace_count_mid low high n h2 hlh i hi
    set y := (linEntry low high n i + linEntry low high n (i + 1)) / 2 with hydef
    have hmid := twoHotTarget_count_mid (linspace low high n) y (i + 1) hc
      (by omega) (by omega)
    rw [hmid, hlen]
    have hsimp : i + 1 - 1 = i := by omega
    rw [hsimp]
    have hgi : (linspace low high n).getD i 0 = linEntry low high n i :=
      linspace_getD low high n (by omega)
    have hgi1 : (linspace low high n).getD (i + 1) 0 =
        linEntry low high n (i + 1) := linspace_getD low high n hi
    rw [hgi, hgi1]
    have hstep : linEntry low high n i < linEntry low high n (i + 1) :=
      linEntry_lt_linEntry low high n h2 hlh (Nat.lt_succ_self i)
    have hdb : |linEntry low high n i - y| =
        (linEntry low high n (i + 1) - linEntry low high n i) / 2 := by
      rw [hydef, abs_sub_comm]
      rw [abs_of_pos (by linarith)]
      ring
    have hda : |linEntry low high n (i + 1) - y| =
        (linEntry low high n (i + 1) - linEntry low high n i) / 2 := by
      rw [hydef, abs_of_pos (by linarith)]
      ring
    rw [hdb, hda]
    apply List.map_congr_left
    intro j _
    have hhalf : (linEntry low high n (i + 1) - linEntry low high n i) / 2 /
        ((linEntry low high n (i + 1) - linEntry low high n i) / 2 +
          (linEntry low high n (i + 1) - linEntry low high n i) / 2) =
        (1:ℚ)/2 := by
      rw [div_eq_iff (by linarith)]
      ring
    rw [hhalf]

/-- Witness for C5 at bins `linspace (-2) 2 3 = [-2, 0, 2]`, exact middle
bin. -/
theorem twoHotTarget_special_cases_witness :
    ((2:ℕ) ≤ 3 ∧ (-2:ℚ) < 2) ∧
      twoHotTarget (linspace (-2) 2 3) (linEntry (-2) 2 3 1) = oneHot 3 1 :=
  ⟨⟨by norm_num, by norm_num⟩,
    (twoHotTarget_special_cases (-2) 2 3 (by norm_num) (by norm_num)).1 1
      (by norm_num)⟩

/-- C10: for every transformed scalar input, the two-hot target over
`linspace low high n` is a probability vector: entries are nonnegative and
sum to exactly 1, including the clamped and exact-bin edge cases. -/
theorem twoHotTarget_prob_vector (low high : ℚ) (n : ℕ) (h2 : 2 ≤ n)
    (hlh : low < high) (y : ℚ) :
    (∀ p ∈ twoHotTarget (linspace low high n) y, 0 ≤ p) ∧
    (twoHotTarget (linspace low high n) y).sum = 1 := by
  have hlen : (linspace low high n).length = n := linspace_length low high n
  set c := (linspace low high n).countP fun b => decide (b ≤ y) with hcdef
  have hcle : c ≤ n :=
    le_trans (List.countP_le_length _) (le_of_eq hlen)
  rcases Nat.eq_zero_or_pos c with hc0 | hcpos
  · have h := twoHotTarget_count_zero (linspace low high n) y
      (by rw [← hcdef]; exact hc0) (by rw [hlen]; omega)
    rw [h, hlen]
    exact ⟨oneHot_nonneg n 0, oneHot_sum n 0 (by omega)⟩
  · rcases Nat.lt_or_ge c n with hcn | hcn
    · have hmid := twoHotTarget_count_mid (linspace low high n) y c
        (by rw [← hcdef]) hcpos (by omega)
      have hrange : ((List.range n).countP fun j =>
          decide (linEntry low high n j ≤ y)) = c := by
        rw [hcdef, linspace_countP_le]
      have hthresh := countP_range_threshold
        (fun j => decide (linEntry low high n j ≤ y)) n
        (fun a b hab hb => by
          simp only [decide_eq_true_eq] at hb ⊢
          exact le_trans ((linEntry_le_iff low high n h2 hlh).mpr hab) hb)
      have hbelow : linEntry low high n (c - 1) ≤ y := by
        have := hthresh.1 (c - 1) (by omega)
        simpa using this
      have habove : y < linEntry low high n c := by
        have := hthresh.2 c (by rw [hrange] at *; omega) (by omega)
        simp only [decide_eq_false_iff_not, not_le] at this
        exact this
      have hgb : (linspace low high n).getD (c - 1) 0 =
          linEntry low high n (c - 1) := linspace_getD low high n (by omega)
      have hga : (linspace low high n).getD c 0 = linEntry low high n c :=
        linspace_getD low high n (by omega)
      have hdb : |(linspace low high n).getD (c - 1) 0 - y| =
          y - linEntry low high n (c - 1) := by
        rw [hgb, abs_sub_comm, abs_of_nonneg (by linarith)]
      have hda : |(linspace low high n).getD c 0 - y| =
          linEntry low high n c - y := by
        rw [hga, abs_of_pos (by linarith)]
      have hT : 0 < |(linspace low high n).getD (c - 1) 0 - y| +
          |(linspace low high n).getD c 0 - y| := by
        rw [hdb, hda]
        linarith
      constructor
      · intro p hp
        rw [hmid] at hp
        simp only [List.mem_map, List.mem_range] at hp
        obtain ⟨j, _, rfl⟩ := hp
        have ha : (0:ℚ) ≤ |(linspace low high n).getD c 0 - y| /
            (|(linspace low high n).getD (c - 1) 0 - y| +
              |(linspace low high n).getD c 0 - y|) :=
          div_nonneg (abs_nonneg _) (le_of_lt hT)
        have hb : (0:ℚ) ≤ |(linspace low high n).getD (c - 1) 0 - y| /
            (|(linspace low high n).getD (c - 1) 0 - y| +
              |(linspace low high n).getD c 0 - y|) :=
          div_nonneg (abs_nonneg _) (le_of_lt hT)
        by_cases h1 : j = c - 1 <;> by_cases h2 : j = c <;>
          simp [h1, h2] <;> positivity
      · rw [hmid, hlen, List.sum_map_add,
          sum_range_single n (c - 1) _ (by omega),
          sum_range_single n c _ (by omega), div_add_div_same, add_comm,
          div_self (by linarith)]
    · have hceq : c = n := by omega
      have h := twoHotTarget_count_full (linspace low high n) y
        (by rw [hlen, ← hcdef, hceq]) (by rw [hlen]; omega)
      rw [h, hlen]
      exact ⟨oneHot_nonneg n (n - 1), oneHot_sum n (n - 1) (by omega)⟩

/-- Witness for C10 at bins `linspace (-2) 2 3` and target `5/7`. -/
theorem twoHotTarget_prob_vector_witness :
    (twoHotTarget (linspace (-2) 2 3) (5/7)).sum = 1 :=
  (twoHotTarget_prob_vector (-2) 2 3 (by norm_num) (by norm_num) (5/7)).2

/-! ## `PlayerDV3.init_states` (sheeprl/algos/dreamer_v3/agent.py, 500-522)

Per-environment state triples become lists (indexed by environment) of
vectors.  `torch.zeros(1, num_envs, d)` drops its leading singleton time
dimension; indexed assignment `t[:, reset_envs] = v` becomes `mapIdx` with a
membership test. -/

structure PlayerState where
  actions : List (List ℚ)
  recurrent_state : List (List ℚ)
  stochastic_state : List (List ℚ)
deriving DecidableEq

/-- The all-environments branch of `init_states` (taken when `reset_envs` is
`None` **or empty**): zero actions, `tanh 0` recurrent state, and the
non-sampled prior computed from that recurrent state, for every
environment. -/
def fullResetState (m : RSSM) (num_envs action_dim recurrent_state_size : ℕ) :
    PlayerState :=
  let recurrent :=
    List.replicate num_envs (tanhZeros (List.replicate recurrent_state_size 0))
  { actions := List.replicate num_envs (List.replicate action_dim 0)
    recurrent_state := recurrent
    stochastic_state := recurrent.map fun r => (m.transition r false).2 }

/-- `PlayerDV3.init_states(reset_envs)`: the guard is
`reset_envs is None or len(reset_envs) == 0`; otherwise the three stored
tensors are reassigned at the indices in `reset_envs` only (the stochastic
state from the just-reset recurrent state at those indices). -/
def init_states (m : RSSM) (num_envs action_dim recurrent_state_size : ℕ)
    (s : PlayerState) (reset_envs : Option (List ℕ)) : PlayerState :=
  match reset_envs with
  | none => fullResetState m num_envs action_dim recurrent_state_size
  | some idxs =>
    if idxs.length = 0 then
      fullResetState m num_envs action_dim recurrent_state_size
    else
      { actions := s.actions.mapIdx fun i a =>
          if i ∈ idxs then a.map (fun _ => 0) else a
        recurrent_state := s.recurrent_state.mapIdx fun i r =>
          if i ∈ idxs then tanhZeros r else r
        stochastic_state := (s.stochastic_state.zip s.recurrent_state).mapIdx
          fun i pr => if i ∈ idxs then (m.transition (tanhZeros pr.2) false).2
            else pr.1 }

theorem mapIdx_getD {α β : Type} (f : ℕ → α → β) (l : List α) (i : ℕ)
    (hi : i < l.length) (d : α) (d2 : β) :
    (l.mapIdx f).getD i d2 = f i (l.getD i d) := by
  induction l generalizing f i with
  | nil => simp at hi
  | cons a l ih =>
    rw [List.mapIdx_cons]
    cases i with
    | zero => simp
    | succ i =>
      simp only [List.getD_cons_succ]
      exact ih _ i (by simpa using hi)

theorem zip_getD {α β : Type} (l1 : List α) (l2 : List β) (i : ℕ)
    (h1 : i < l1.length) (h2 : i < l2.length) (d1 : α) (d2 : β) :
    (l1.zip l2).getD i (d1, d2) = (l1.getD i d1, l2.getD i d2) := by
  have hz : i < (l1.zip l2).length := by
    simp [List.length_zip]
    omega
  rw [List.getD_eq_getElem _ _ hz, List.getD_eq_getElem _ _ h1,
    List.getD_eq_getElem _ _ h2, List.getElem_zip]

/-- Concrete player state used in the C7 counterexample. -/
def playerCE : PlayerState where
  actions := [[5]]
  recurrent_state := [[6]]
  stochastic_state := [[7]]

/-- Counterexample to C7: calling `init_states` with the **empty** index list
(no indicated environments) resets every environment rather than leaving the
non-indicated ones untouched — the guard treats an empty `reset_envs` like
`None`. -/
theorem init_states_empty_resets_all :
    (0 : ℕ) ∉ ([] : List ℕ) ∧
    (init_states rssmW 1 1 1 playerCE (some [])).actions.getD 0 [] ≠
      playerCE.actions.getD 0 [] := by
  decide

/-- C7 amended: for a non-empty `reset_envs`, `init_states` sets the stored
action, recurrent state and stochastic state to their episode-start values
(zero action, `tanh 0` recurrent state, non-sampled prior from that reset
recurrent state) exactly at the indicated environment indices and leaves every
other index unchanged; when `reset_envs` is `None` **or the empty list**, all
environments are reset. -/
theorem init_states_reset_spec (m : RSSM) (ne ad rs : ℕ) (s : PlayerState)
    (idxs : List ℕ) (hne : idxs ≠ [])
    (hsl : s.stochastic_state.length = s.recurrent_state.length) :
    (∀ i, i ∈ idxs →
      (i < s.actions.length →
        (init_states m ne ad rs s (some idxs)).actions.getD i [] =
          (s.actions.getD i []).map fun _ => 0) ∧
      (i < s.recurrent_state.length →
        (init_states m ne ad rs s (some idxs)).recurrent_state.getD i [] =
          tanhZeros (s.recurrent_state.getD i [])) ∧
      (i < s.stochastic_state.length →
        (init_states m ne ad rs s (some idxs)).stochastic_state.getD i [] =
          (m.transition (tanhZeros (s.recurrent_state.getD i [])) false).2)) ∧
    (∀ i, i ∉ idxs →
      (init_states m ne ad rs s (some idxs)).actions.getD i [] =
        s.actions.getD i [] ∧
      (init_states m ne ad rs s (some idxs)).recurrent_state.getD i [] =
        s.recurrent_state.getD i [] ∧
      (init_states m ne ad rs s (some idxs)).stochastic_state.getD i [] =
        s.stochastic_state.getD i []) ∧
    init_states m ne ad rs s none = fullResetState m ne ad rs ∧
    init_states m ne ad rs s (some []) = fullResetState m ne ad rs := by
  have hcond : ¬(idxs.length = 0) := by
    simpa [List.length_eq_zero] using hne
  have hunfold : init_states m ne ad rs s (some idxs) =
      { actions := s.actions.mapIdx fun i a =>
          if i ∈ idxs then a.map (fun _ => 0) else a
        recurrent_state := s.recurrent_state.mapIdx fun i r =>
          if i ∈ idxs then tanhZeros r else r
        stochastic_state := (s.stochastic_state.zip s.recurrent_state).mapIdx
          fun i pr => if i ∈ idxs then (m.transition (tanhZeros pr.2) false).2
            else pr.1 } := by
    simp [init_states, hcond]
  have hziplen : (s.stochastic_state.zip s.recurrent_state).length =
      s.stochastic_state.length := by
    simp [List.length_zip]
    omega
  refine ⟨?_, ?_, rfl, rfl⟩
  · intro i hmem
    refine ⟨?_, ?_, ?_⟩
    · intro hi
      rw [hunfold]
      simp only
      rw [mapIdx_getD _ _ i hi [] [], if_pos hmem]
    · intro hi
      rw [hunfold]
      simp only
      rw [mapIdx_getD _ _ i hi [] [], if_pos hmem]
    · intro hi
      rw [hunfold]
      simp only
      rw [mapIdx_getD _ _ i (by omega) ([], []) []]
      rw [zip_getD _ _ i hi (by omega)]
      rw [if_pos hmem]
  · intro i hmem
    rcases Nat.lt_or_ge i s.actions.length with ha | ha
    · refine ⟨?_, ?_, ?_⟩
      · rw [hunfold]
        simp only
        rw [mapIdx_getD _ _ i ha [] [], if_neg hmem]
      · rcases Nat.lt_or_ge i s.recurrent_state.length with hr | hr
        · rw [hunfold]
          simp only
          rw [mapIdx_getD _ _ i hr [] [], if_neg hmem]
        · rw [hunfold]
          simp only
          rw [List.getD_eq_default _ _ (by simp [List.length_mapIdx]; omega),
            List.getD_eq_default _ _ hr]
      · rcases Nat.lt_or_ge i s.stochastic_state.length with hs | hs
        · rw [hunfold]
          simp only
          rw [mapIdx_getD _ _ i (by omega) ([], []) []]
          rw [zip_getD _ _ i hs (by omega), if_neg hmem]
        · rw [hunfold]
          simp only
          rw [List.getD_eq_default _ _
              (by rw [List.length_mapIdx, hziplen]; omega),
            List.getD_eq_default _ _ hs]
    · refine ⟨?_, ?_, ?_⟩
      · rw [hunfold]
        simp only
        rw [List.getD_eq_default _ _ (by simp [List.length_mapIdx]; omega),
          List.getD_eq_default _ _ ha]
      · rcases Nat.lt_or_ge i s.recurrent_state.length with hr | hr
        · rw [hunfold]
          simp only
          rw [mapIdx_getD _ _ i hr [] [], if_neg hmem]
        · rw [hunfold]
          simp only
          rw [List.getD_eq_default _ _ (by simp [List.length_mapIdx]; omega),
            List.getD_eq_default _ _ hr]
      · rcases Nat.lt_or_ge i s.stochastic_state.length with hs | hs
        · rw [hunfold]
          simp only
          rw [mapIdx_getD _ _ i (by omega) ([], []) []]
          rw [zip_getD _ _ i hs (by omega), if_neg hmem]
        · rw [hunfold]
          simp only
          rw [List.getD_eq_default _ _
              (by rw [List.length_mapIdx, hziplen]; omega),
            List.getD_eq_default _ _ hs]

/-- Concrete player state used in the C7 witness. -/
def playerW : PlayerState where
  actions := [[1], [2]]
  recurrent_state := [[3], [4]]
  stochastic_state := [[5], [6]]

/-- Witness for C7's amended theorem: resetting environment 0 of two zeroes
its action and leaves environment 1 untouched. -/
theorem init_states_reset_spec_witness :
    (init_states rssmW 2 1 1 playerW (some [0])).actions.getD 0 [] =
      ((playerW.actions.getD 0 []).map fun _ => 0) ∧
    (init_states rssmW 2 1 1 playerW (some [0])).actions.getD 1 [] =
      playerW.actions.getD 1 [] := by
  have h := init_states_reset_spec rssmW 2 1 1 playerW [0] (by decide)
    (by decide)
  exact ⟨(h.1 0 (by decide)).1 (by decide), (h.2.1 1 (by decide)).1⟩

end SheepRL
